import Mathlib

/-!
Verification of the LeXIDesk extractive summarizer (`backend/src/summarizer.py`).

The module is shallowly embedded over `ℝ`.  Machine floats are modelled as exact
reals; Python exceptions as `Except`; the external collaborators (networkx
PageRank, scikit-learn TF-IDF cosine similarity, sentence-transformers
embeddings) as oracle functions bundled in `Backends`, where `none` models the
collaborator raising an exception.  The in-source wrappers around those
collaborators (fallbacks, padding, renormalisation, combination, selection) are
translated directly from the source.
-/

/-- Tolerance `1e-6` used by the constructor's weight-sum check (line 86). -/
noncomputable def eps : ℝ := 1 / 1000000

/-- Message of the Python `ZeroDivisionError` raised by `x /= 0.0`. -/
def zeroDivMsg : String := "float division by zero"

/-- Key "cnn_prob" of the component score dict (line 335). -/
def cnnProbKey : String := "cnn_prob"

/-- Key "textrank" of the component score dict (line 342). -/
def textrankKey : String := "textrank"

/-- Key "tfidf" of the component score dict (line 353). -/
def tfidfKey : String := "tfidf"

/-- Key "embeddings" of the component score dict (line 350). -/
def embeddingsKey : String := "embeddings"

/-- Key "position" of the component score dict (line 360). -/
def positionKey : String := "position"

/-- The empty string (default used when materialising `sentences[i]`). -/
def emptyStr : String := ""

/-- The uniform distribution `np.ones(n) / n` over `n` items (empty for `n = 0`). -/
noncomputable def uniformScores (n : ℕ) : List ℝ := List.replicate n ((n : ℝ)⁻¹)

/-- The renormalisation idiom `scores / scores.sum() if scores.sum() > 0 else
np.ones(n)/n` appearing at lines 167-171, 200-204, 256-260, 300-304, 372-376. -/
noncomputable def normalizeScores (n : ℕ) (scores : List ℝ) : List ℝ :=
  if 0 < scores.sum then scores.map (· / scores.sum) else uniformScores n

/-- External collaborators of the summarizer.  `hasNetworkx`/`hasSklearn` model
the import-availability flags `HAS_NETWORKX`/`HAS_SKLEARN`; the three oracles
model, per sentence list, the per-index scores produced by `nx.pagerank` on the
Jaccard similarity graph (a dict, read back with `.get(i, 0.0)`), by the
sklearn TF-IDF cosine-similarity-to-centroid pipeline, and by the
sentence-transformers cosine-similarity pipeline.  `none` models the
collaborator raising an exception, caught by the source's `except` blocks. -/
structure Backends where
  hasNetworkx : Bool
  hasSklearn : Bool
  pagerank : List String → Option (ℕ → ℝ)
  tfidfSim : List String → Option (ℕ → ℝ)
  embedSim : List String → Option (ℕ → ℝ)

/-- State of a constructed `SentenceSummarizer`: the four stored coefficients,
the effective `use_embeddings` flag (the requested flag conjoined with backend
availability and successful model load, per lines 93-102), and whether the
constructor emitted the weight-normalisation `warnings.warn` (line 87). -/
structure SummarizerConfig where
  cnn_prob_weight : ℝ
  textrank_weight : ℝ
  tfidf_weight : ℝ
  position_weight : ℝ
  use_embeddings : Bool
  config_warning : Bool

/-- `SentenceSummarizer.__init__` (lines 59-102).  The only control flow is the
weight-sum check: when `abs(total - 1.0) > 1e-6` each stored weight is divided
by `total` and a warning is recorded; a Python `ZeroDivisionError` escapes when
`total` is exactly `0.0`.  No range validation is performed. -/
noncomputable def summarizer_init (c t f p : ℝ) (useEmb : Bool) :
    Except String SummarizerConfig :=
  let total := c + t + f + p
  if eps < |total - 1| then
    if total = 0 then Except.error zeroDivMsg
    else Except.ok ⟨c / total, t / total, f / total, p / total, useEmb, true⟩
  else Except.ok ⟨c, t, f, p, useEmb, false⟩

/-- The pre-normalisation CNN score vector of `_compute_cnn_prob_scores`
(lines 287-298): used directly when the length matches the sentence count,
truncated when longer, right-padded with the neutral value `0.5` when shorter. -/
noncomputable def cnnRawScores (n : ℕ) (probs : List ℝ) : List ℝ :=
  if probs.length = n then probs
  else if n < probs.length then probs.take n
  else probs ++ List.replicate (n - probs.length) (1 / 2)

/-- `SentenceSummarizer._compute_cnn_prob_scores` (lines 264-306). -/
noncomputable def compute_cnn_prob_scores (sentences : List String)
    (original_text : String) (cnn_probs : Option (List ℝ)) : List ℝ :=
  match cnn_probs with
  | none => if 0 < sentences.length then uniformScores sentences.length else []
  | some probs =>
    if probs.length = 0 then
      (if 0 < sentences.length then uniformScores sentences.length else [])
    else normalizeScores sentences.length (cnnRawScores sentences.length probs)

/-- `SentenceSummarizer._compute_textrank_scores` (lines 120-173).  The graph
construction plus `nx.pagerank` call is the `B.pagerank` oracle; the source's
`pagerank_scores.get(i, 0.0)` read-back, the `except` fallback to uniform, and
the final renormalisation are translated directly. -/
noncomputable def compute_textrank_scores (B : Backends)
    (sentences : List String) : List ℝ :=
  if !B.hasNetworkx then uniformScores sentences.length
  else if sentences.length < 2 then
    (if 0 < sentences.length then uniformScores sentences.length else [])
  else
    normalizeScores sentences.length
      (match B.pagerank sentences with
       | some pr => (List.range sentences.length).map (fun i => pr i)
       | none => uniformScores sentences.length)

/-- `SentenceSummarizer._compute_tfidf_scores` (lines 175-209).  The sklearn
vectorisation and cosine similarity is the `B.tfidfSim` oracle; an exception
(`none`) degrades to uniform scores with a warning, per lines 207-209. -/
noncomputable def compute_tfidf_scores (B : Backends)
    (sentences : List String) : List ℝ :=
  if !B.hasSklearn then uniformScores sentences.length
  else if sentences.length = 0 then []
  else
    match B.tfidfSim sentences with
    | some f => normalizeScores sentences.length
        ((List.range sentences.length).map (fun i => f i))
    | none => uniformScores sentences.length

/-- `SentenceSummarizer._compute_embedding_scores` (lines 211-240).  With
embeddings disabled, or on an inference exception, it degrades to the TF-IDF
path. -/
noncomputable def compute_embedding_scores (B : Backends) (useEmb : Bool)
    (sentences : List String) : List ℝ :=
  if !useEmb then compute_tfidf_scores B sentences
  else
    match B.embedSim sentences with
    | some f => normalizeScores sentences.length
        ((List.range sentences.length).map (fun i => f i))
    | none => compute_tfidf_scores B sentences

/-- `SentenceSummarizer._compute_position_scores` (lines 242-262):
`np.exp(-np.arange(n) * 0.1)`, renormalised. -/
noncomputable def compute_position_scores (sentences : List String) : List ℝ :=
  if sentences.length = 0 then []
  else
    normalizeScores sentences.length
      ((List.range sentences.length).map
        (fun i : ℕ => Real.exp (-((i : ℝ) * (1 / 10)))))

/-- The weighted elementwise combination of the four component vectors
(lines 365-370). -/
noncomputable def combineScores (cfg : SummarizerConfig) (cnn tr sim pos : List ℝ)
    (n : ℕ) : List ℝ :=
  (List.range n).map (fun i =>
    cfg.cnn_prob_weight * cnn.getD i 0 + cfg.textrank_weight * tr.getD i 0 +
      cfg.tfidf_weight * sim.getD i 0 + cfg.position_weight * pos.getD i 0)

/-- `SentenceSummarizer.compute_sentence_weights` (lines 308-378).  Returns the
combined weight vector and the component score dict (modelled as an association
list in Python insertion order). -/
noncomputable def compute_sentence_weights (B : Backends)
    (cfg : SummarizerConfig) (sentences : List String) (original_text : String)
    (cnn_probs : Option (List ℝ)) : List ℝ × List (String × List ℝ) :=
  if sentences.length = 0 then ([], [])
  else
    let n := sentences.length
    let cnn_scores := if 0 < cfg.cnn_prob_weight then
        compute_cnn_prob_scores sentences original_text cnn_probs
      else List.replicate n 0
    let textrank_scores := if 0 < cfg.textrank_weight then
        compute_textrank_scores B sentences
      else List.replicate n 0
    let similarity_scores := if 0 < cfg.tfidf_weight then
        (if cfg.use_embeddings then compute_embedding_scores B cfg.use_embeddings sentences
         else compute_tfidf_scores B sentences)
      else List.replicate n 0
    let position_scores := if 0 < cfg.position_weight then
        compute_position_scores sentences
      else List.replicate n 0
    let component_scores :=
      (if 0 < cfg.cnn_prob_weight then [(cnnProbKey, cnn_scores)] else []) ++
      (if 0 < cfg.textrank_weight then [(textrankKey, textrank_scores)] else []) ++
      (if 0 < cfg.tfidf_weight then
        [((if cfg.use_embeddings then embeddingsKey else tfidfKey), similarity_scores)]
       else []) ++
      (if 0 < cfg.position_weight then [(positionKey, position_scores)] else [])
    let combined := combineScores cfg cnn_scores textrank_scores
      similarity_scores position_scores n
    (normalizeScores n combined, component_scores)

/-- Python's `int()` truncation toward zero for a real argument. -/
noncomputable def pyInt (x : ℝ) : ℤ := if 0 ≤ x then ⌊x⌋ else ⌈x⌉

/-- Number of elements kept by the Python slice `l[:k]` on a list of length
`len` (a negative `k` counts from the end). -/
def pyCount (k : ℤ) (len : ℕ) : ℕ :=
  if 0 ≤ k then min k.toNat len else len - k.natAbs

/-- The Python slice `l[:k]`. -/
def pyTake {α : Type} (k : ℤ) (l : List α) : List α := l.take (pyCount k l.length)

/-- `sentence_indices.sort(key=lambda i: weights[i], reverse=True)`
(lines 423-424).  Python's sort is stable, and a stable descending sort is an
insertion sort on the relation `weights[j] <= weights[i]`. -/
noncomputable def rankDescending (weights : List ℝ) (n : ℕ) : List ℕ :=
  (List.range n).insertionSort (fun i j => weights.getD j 0 ≤ weights.getD i 0)

/-- `np.argsort(weights)` (line 428), modelled as a stable ascending sort of
the indices by weight (numpy's introsort runs plain insertion sort — stable —
for the small arrays considered here, and ties between equal weights keep
index order ascending). -/
noncomputable def argsortAsc (weights : List ℝ) (n : ℕ) : List ℕ :=
  (List.range n).insertionSort (fun i j => weights.getD i 0 ≤ weights.getD j 0)

/-- The index-selection block of `summarize` (lines 420-429): rank the indices,
slice off the first `n_select`, and re-sort the chosen indices ascending
(`sorted(...)` in both branches). -/
noncomputable def selectedIndices (weights : List ℝ) (nSelect : ℤ) (n : ℕ)
    (preserve_order : Bool) : List ℕ :=
  if preserve_order then
    (pyTake nSelect (rankDescending weights n)).insertionSort (· ≤ ·)
  else
    (pyTake nSelect (argsortAsc weights n).reverse).insertionSort (· ≤ ·)

/-- `SentenceSummarizer.summarize` (lines 380-434).  `top_k` is a Python `int`
(modelled as `ℤ`), `compression` a float.  Returns the selected sentences, the
full weight vector and the component score dict. -/
noncomputable def summarize (B : Backends) (cfg : SummarizerConfig)
    (sentences : List String) (original_text : String)
    (cnn_probs : Option (List ℝ)) (compression : Option ℝ) (top_k : Option ℤ)
    (preserve_order : Bool) : List String × List ℝ × List (String × List ℝ) :=
  if sentences.length = 0 then ([], [], [])
  else
    let wc := compute_sentence_weights B cfg sentences original_text cnn_probs
    let nSelect : ℤ :=
      match top_k with
      | some k => min k (sentences.length : ℤ)
      | none =>
        match compression with
        | some r => max 1 (pyInt ((sentences.length : ℝ) * r))
        | none => max 2 (pyInt ((sentences.length : ℝ) * (3 / 10)))
    let sel := selectedIndices wc.1 nSelect sentences.length preserve_order
    (sel.map (fun i => sentences.getD i emptyStr), wc.1, wc.2)

/-- The strict priority order realised by a stable descending sort of the
indices: strictly larger weight first, ties broken by ascending index. -/
noncomputable def better (weights : List ℝ) (i j : ℕ) : Prop :=
  weights.getD j 0 < weights.getD i 0 ∨
    (weights.getD i 0 = weights.getD j 0 ∧ i < j)

/-- Backends with every optional collaborator absent or failing. -/
def trivialBackends : Backends :=
  ⟨false, false, fun _ => none, fun _ => none, fun _ => none⟩

/-- A configuration whose whole mass sits on the external boundary signal
(`cnn_prob_weight = 1`, everything else `0`): the stored state after
`SentenceSummarizer(1, 0, 0, 0)`. -/
noncomputable def cfgCnnOnly : SummarizerConfig := ⟨1, 0, 0, 0, false, false⟩

/-- The default configuration `SentenceSummarizer()`: weights
`0.25/0.35/0.30/0.10` (summing to 1, so no normalisation), no embeddings. -/
noncomputable def defaultConfig : SummarizerConfig :=
  ⟨1 / 4, 35 / 100, 3 / 10, 1 / 10, false, false⟩

/-! ### Basic lemmas about the shared normalisation idiom -/

theorem uniformScores_length (n : ℕ) : (uniformScores n).length = n := by
  simp [uniformScores]

theorem uniformScores_sum (n : ℕ) (h : 0 < n) : (uniformScores n).sum = 1 := by
  simp only [uniformScores, List.sum_replicate, nsmul_eq_mul]
  rw [mul_inv_cancel₀]
  exact_mod_cast h.ne'

theorem uniformScores_nonneg (n : ℕ) : ∀ x ∈ uniformScores n, 0 ≤ x := by
  intro x hx
  simp only [uniformScores] at hx
  rw [List.eq_of_mem_replicate hx]
  positivity

theorem sum_map_div (l : List ℝ) (c : ℝ) : (l.map (· / c)).sum = l.sum / c := by
  induction l with
  | nil => simp
  | cons a l ih => simp [ih, add_div]

theorem sum_pos_of_mem_pos (l : List ℝ) (h : ∀ x ∈ l, 0 < x) (hne : l ≠ []) :
    0 < l.sum := by
  induction l with
  | nil => simp at hne
  | cons a l ih =>
    rcases l with _ | ⟨b, l⟩
    · simpa using h a (by simp)
    · have h1 := ih (fun x hx => h x (by simp [hx])) (by simp)
      have ha := h a (by simp)
      simp only [List.sum_cons] at h1 ⊢
      linarith

theorem sum_nonneg_of_mem_nonneg (l : List ℝ) (h : ∀ x ∈ l, 0 ≤ x) :
    0 ≤ l.sum := by
  induction l with
  | nil => simp
  | cons a l ih =>
    have h1 := ih (fun x hx => h x (by simp [hx]))
    have ha := h a (by simp)
    simp only [List.sum_cons]
    linarith

theorem normalizeScores_length (n : ℕ) (s : List ℝ) (h : s.length = n) :
    (normalizeScores n s).length = n := by
  rw [normalizeScores]
  split
  · simp [h]
  · exact uniformScores_length n

theorem normalizeScores_sum (n : ℕ) (s : List ℝ) (hn : 0 < n) :
    (normalizeScores n s).sum = 1 := by
  rw [normalizeScores]
  split
  · rename_i hpos
    rw [sum_map_div, div_self hpos.ne']
  · exact uniformScores_sum n hn

theorem normalizeScores_nonneg (n : ℕ) (s : List ℝ) (h : ∀ x ∈ s, 0 ≤ x) :
    ∀ x ∈ normalizeScores n s, 0 ≤ x := by
  intro x hx
  rw [normalizeScores] at hx
  split at hx
  · rename_i hpos
    obtain ⟨y, hy, rfl⟩ := List.mem_map.mp hx
    exact div_nonneg (h y hy) hpos.le
  · exact uniformScores_nonneg n x hx

theorem getD_range_map (n : ℕ) (f : ℕ → ℝ) (i : ℕ) (d : ℝ) (h : i < n) :
    ((List.range n).map f).getD i d = f i := by
  rw [List.getD_eq_getElem _ _ (by simpa using h)]
  simp

/-! ### Claim C9 -/

/-- C9: for an empty sentence list every public operation returns empty
outputs without raising.  `compute_sentence_weights` returns an empty weight
vector and empty component map; `summarize` returns an empty sentence list,
empty weight vector and empty component map, for every combination of the
other arguments. -/
theorem empty_input_returns_empty (B : Backends) (cfg : SummarizerConfig)
    (original_text : String) (cnn_probs : Option (List ℝ))
    (compression : Option ℝ) (top_k : Option ℤ) (preserve_order : Bool) :
    compute_sentence_weights B cfg [] original_text cnn_probs = ([], []) ∧
      summarize B cfg [] original_text cnn_probs compression top_k
        preserve_order = ([], [], []) := by
  constructor
  · rw [compute_sentence_weights]
    simp
  · rw [summarize.eq_def]
    simp

/-! ### Claim C10 -/

/-- C10: the weight vector and component score map returned by `summarize` are
exactly the pair returned by `compute_sentence_weights` on the same
`sentences`, `original_text` and `cnn_probs` arguments; selection never alters
or re-derives them. -/
theorem summarize_weights_refine_compute (B : Backends)
    (cfg : SummarizerConfig) (sentences : List String) (original_text : String)
    (cnn_probs : Option (List ℝ)) (compression : Option ℝ) (top_k : Option ℤ)
    (preserve_order : Bool) :
    (summarize B cfg sentences original_text cnn_probs compression top_k
        preserve_order).2.1 =
      (compute_sentence_weights B cfg sentences original_text cnn_probs).1 ∧
    (summarize B cfg sentences original_text cnn_probs compression top_k
        preserve_order).2.2 =
      (compute_sentence_weights B cfg sentences original_text cnn_probs).2 := by
  by_cases h : sentences.length = 0
  · have hnil : sentences = [] := List.length_eq_zero.mp h
    subst hnil
    rw [summarize.eq_def, compute_sentence_weights]
    simp
  · rw [summarize.eq_def]
    simp only [if_neg h]
    simp

/-! ### Claims C2 and C7: constructor behaviour -/

/-- C2 (amended): construction performs no range validation at all.  Any
coefficients whose total is nonzero construct successfully — negative
coefficients are silently normalized, not rejected — and the only exception
that can escape construction is the `ZeroDivisionError` arising exactly when
the coefficient total is zero (which also hits the all-zero non-negative
configuration). -/
theorem init_no_range_validation (c t f p : ℝ) (useEmb : Bool) :
    (c + t + f + p ≠ 0 →
      ∃ cfg, summarizer_init c t f p useEmb = Except.ok cfg) ∧
    (c + t + f + p = 0 →
      summarizer_init c t f p useEmb = Except.error zeroDivMsg) := by
  constructor
  · intro h
    by_cases hfar : eps < |c + t + f + p - 1|
    · simp only [summarizer_init, if_pos hfar, if_neg h]
      exact ⟨_, rfl⟩
    · simp only [summarizer_init, if_neg hfar]
      exact ⟨_, rfl⟩
  · intro h
    simp only [summarizer_init, h]
    norm_num [eps]

/-- Witness for C2's amended theorem: the negative-coefficient configuration
`(-1, 1, 1, 1)` has nonzero total and constructs successfully. -/
theorem init_no_range_validation_witness :
    ((-1 : ℝ) + 1 + 1 + 1 ≠ 0) ∧
      ∃ cfg, summarizer_init (-1) 1 1 1 false = Except.ok cfg :=
  ⟨by norm_num, (init_no_range_validation (-1) 1 1 1 false).1 (by norm_num)⟩

/-- Counterexample to C2 as stated: constructing with the negative weight
coefficient `cnn_prob_weight = -1` does not fail fast with an error — it
succeeds, silently storing the normalized (still negative) coefficient
`-1/2`. -/
theorem init_accepts_negative_weight :
    summarizer_init (-1) 1 1 1 false =
      Except.ok ⟨-(1 / 2), 1 / 2, 1 / 2, 1 / 2, false, true⟩ := by
  simp only [summarizer_init]
  norm_num [eps]

/-- C7 (amended): when the four coefficients do not sum to 1 beyond tolerance
`1e-6` and their total is nonzero, construction divides each coefficient by
the total, records the non-fatal warning, and the stored coefficients sum
to 1.  (The claim's "never raising" fails only for a total of exactly zero —
see the counterexample.) -/
theorem init_normalizes_with_warning (c t f p : ℝ) (useEmb : Bool)
    (hfar : eps < |c + t + f + p - 1|) (hz : c + t + f + p ≠ 0) :
    summarizer_init c t f p useEmb =
      Except.ok ⟨c / (c + t + f + p), t / (c + t + f + p),
        f / (c + t + f + p), p / (c + t + f + p), useEmb, true⟩ ∧
    c / (c + t + f + p) + t / (c + t + f + p) + f / (c + t + f + p) +
        p / (c + t + f + p) = 1 := by
  constructor
  · simp only [summarizer_init]
    rw [if_pos hfar, if_neg hz]
  · rw [div_add_div_same, div_add_div_same, div_add_div_same, div_self hz]

/-- Witness for C7's amended theorem, realising the spec scenario:
coefficients `{0.1, 0.1, 0.1, 0.1}` (sum `0.4`) are auto-normalized to
`{0.25, 0.25, 0.25, 0.25}` with the warning recorded. -/
theorem init_normalizes_with_warning_witness :
    summarizer_init (1 / 10) (1 / 10) (1 / 10) (1 / 10) false =
      Except.ok ⟨1 / 4, 1 / 4, 1 / 4, 1 / 4, false, true⟩ := by
  have h := (init_normalizes_with_warning (1 / 10) (1 / 10) (1 / 10) (1 / 10)
    false (by
      rw [show ((1:ℝ)/10 + 1/10 + 1/10 + 1/10 - 1) = -(3/5) by norm_num, abs_neg,
        abs_of_pos (by norm_num : (0:ℝ) < 3/5), eps]
      norm_num) (by norm_num)).1
  rw [h]
  norm_num

/-- Counterexample to C7 as stated: with all four coefficients `0`, the sum is
not 1, yet construction does not normalize-and-warn — the renormalisation
divides by the zero total and a `ZeroDivisionError` escapes. -/
theorem init_zero_total_raises :
    summarizer_init 0 0 0 0 false = Except.error zeroDivMsg := by
  simp only [summarizer_init]
  norm_num [eps]

/-! ### Claim C6: the external boundary signal -/

theorem cnnRawScores_length (n : ℕ) (probs : List ℝ) :
    (cnnRawScores n probs).length = n := by
  rw [cnnRawScores]
  split
  · assumption
  · split
    · rename_i hlt
      simp [Nat.min_eq_left hlt.le]
    · rename_i hne hnlt
      have : probs.length ≤ n := by omega
      simp [this]

theorem cnnRawScores_nonneg (n : ℕ) (probs : List ℝ)
    (h : ∀ x ∈ probs, 0 ≤ x) : ∀ x ∈ cnnRawScores n probs, 0 ≤ x := by
  intro x hx
  rw [cnnRawScores] at hx
  split at hx
  · exact h x hx
  · split at hx
    · exact h x (List.mem_of_mem_take hx)
    · rcases List.mem_append.mp hx with hm | hm
      · exact h x hm
      · rw [List.eq_of_mem_replicate hm]
        norm_num

theorem uniform_if (m : ℕ) :
    (if 0 < m then uniformScores m else []) = uniformScores m := by
  split
  · rfl
  · rename_i h
    have hm : m = 0 := by omega
    rw [hm, uniformScores]
    rfl

/-- C6: the external boundary signal over `N` sentences.  An absent or empty
probability sequence yields the uniform distribution; a shorter sequence is
right-padded so that positions `length..N-1` equal `0.5` before normalization;
a longer sequence is truncated, so only the first `N` values influence the
result; the padded/truncated vector is then normalized to sum to 1, falling
back to uniform exactly when its pre-normalization sum is 0 (for a probability
sequence all of whose entries are non-negative). -/
theorem cnn_boundary_signal_spec (sentences : List String)
    (original_text : String) (probs : List ℝ) (hne : probs ≠ [])
    (hnn : ∀ x ∈ probs, 0 ≤ x) :
    compute_cnn_prob_scores sentences original_text none =
        uniformScores sentences.length ∧
    compute_cnn_prob_scores sentences original_text (some []) =
        uniformScores sentences.length ∧
    (probs.length < sentences.length →
      (∀ i, probs.length ≤ i → i < sentences.length →
        (cnnRawScores sentences.length probs).getD i 0 = 1 / 2) ∧
      compute_cnn_prob_scores sentences original_text (some probs) =
        normalizeScores sentences.length
          (cnnRawScores sentences.length probs)) ∧
    (sentences.length < probs.length →
      compute_cnn_prob_scores sentences original_text (some probs) =
        compute_cnn_prob_scores sentences original_text
          (some (probs.take sentences.length))) ∧
    ((cnnRawScores sentences.length probs).sum = 0 →
      compute_cnn_prob_scores sentences original_text (some probs) =
        uniformScores sentences.length) ∧
    ((cnnRawScores sentences.length probs).sum ≠ 0 →
      compute_cnn_prob_scores sentences original_text (some probs) =
        (cnnRawScores sentences.length probs).map
          (· / (cnnRawScores sentences.length probs).sum) ∧
      (compute_cnn_prob_scores sentences original_text (some probs)).sum
        = 1) := by
  have hlp : probs.length ≠ 0 := fun h => hne (List.length_eq_zero.mp h)
  refine ⟨?_, ?_, ?_, ?_, ?_, ?_⟩
  · rw [compute_cnn_prob_scores]
    exact uniform_if sentences.length
  · rw [compute_cnn_prob_scores,
      if_pos (by simp : ([] : List ℝ).length = 0)]
    exact uniform_if sentences.length
  · intro hshort
    constructor
    · intro i hi hin
      rw [cnnRawScores, if_neg (by omega), if_neg (by omega)]
      rw [List.getD_eq_getElem _ _ (by simp; omega)]
      rw [List.getElem_append_right (by omega)]
      exact List.getElem_replicate ..
    · rw [compute_cnn_prob_scores]
      simp only [if_neg hlp]
  · intro hlong
    have hn0 : (probs.take sentences.length).length = sentences.length := by
      simp [Nat.min_eq_left hlong.le]
    rw [compute_cnn_prob_scores, compute_cnn_prob_scores]
    simp only [if_neg hlp]
    rcases Nat.eq_zero_or_pos sentences.length with hz | hp
    · rw [hz]
      simp only [List.take_zero, List.length_nil, if_pos rfl, hz]
      rw [cnnRawScores, if_neg (by omega), if_pos (by omega)]
      rw [normalizeScores, List.take_zero]
      simp [uniformScores]
    · have : (probs.take sentences.length).length ≠ 0 := by omega
      rw [if_neg this]
      rw [cnnRawScores, if_neg (by omega), if_pos (by omega)]
      rw [cnnRawScores, if_pos hn0]
  · intro hzero
    rw [compute_cnn_prob_scores]
    simp only [if_neg hlp]
    rw [normalizeScores, if_neg (by rw [hzero]; norm_num)]
  · intro hnz
    have hpos : 0 < (cnnRawScores sentences.length probs).sum := by
      rcases lt_or_eq_of_le (sum_nonneg_of_mem_nonneg _
        (cnnRawScores_nonneg _ _ hnn)) with h | h
      · exact h
      · exact absurd h.symm hnz
    have hn : 0 < sentences.length := by
      by_contra hn0
      have hz : sentences.length = 0 := by omega
      have : (cnnRawScores sentences.length probs).length = 0 := by
        rw [cnnRawScores_length, hz]
      have : cnnRawScores sentences.length probs = [] :=
        List.length_eq_zero.mp this
      rw [this] at hnz
      simp at hnz
    constructor
    · rw [compute_cnn_prob_scores]
      simp only [if_neg hlp]
      rw [normalizeScores, if_pos hpos]
    · rw [compute_cnn_prob_scores]
      simp only [if_neg hlp]
      exact normalizeScores_sum _ _ hn

/-- Witness for C6 at a concrete input: three sentences, supplied sequence
`[0.5]` of length 1 — the padded positions 1 and 2 equal `0.5` before
normalization, and an absent sequence yields the uniform distribution. -/
theorem cnn_boundary_signal_spec_witness :
    compute_cnn_prob_scores ["a", "b", "c"] emptyStr none = uniformScores 3 ∧
    (cnnRawScores 3 [(1 : ℝ) / 2]).getD 2 0 = 1 / 2 := by
  have h := cnn_boundary_signal_spec ["a", "b", "c"] emptyStr [(1 : ℝ) / 2]
    (by simp) (by norm_num)
  exact ⟨h.1, (h.2.2.1 (by norm_num)).1 2 (by norm_num) (by norm_num)⟩

/-! ### Claim C8: the position signal -/

theorem position_raw_sum_pos (n : ℕ) (hn : 0 < n) :
    0 < ((List.range n).map (fun i : ℕ => Real.exp (-((i : ℝ) * (1 / 10))))).sum := by
  apply sum_pos_of_mem_pos
  · intro x hx
    obtain ⟨k, _, rfl⟩ := List.mem_map.mp hx
    exact Real.exp_pos _
  · intro hcon
    have hlen := congrArg List.length hcon
    simp at hlen
    omega

/-- C8: over a non-empty list of `N` sentences the position signal at index
`i` equals `exp(-0.1 * i)` renormalized to sum to 1, and it is strictly
monotonically decreasing in the index (non-vacuously so for `N > 1`). -/
theorem position_signal_spec (sentences : List String)
    (hne : sentences ≠ []) :
    (∀ i < sentences.length,
      (compute_position_scores sentences).getD i 0 =
        Real.exp (-((i : ℝ) * (1 / 10))) /
          ((List.range sentences.length).map
            (fun k : ℕ => Real.exp (-((k : ℝ) * (1 / 10))))).sum) ∧
    (compute_position_scores sentences).sum = 1 ∧
    (∀ i j, i < j → j < sentences.length →
      (compute_position_scores sentences).getD j 0 <
        (compute_position_scores sentences).getD i 0) := by
  have hn : 0 < sentences.length :=
    List.length_pos.mpr hne
  have hlen : sentences.length ≠ 0 := hn.ne'
  have hS := position_raw_sum_pos sentences.length hn
  have hunfold : compute_position_scores sentences =
      ((List.range sentences.length).map
        (fun i : ℕ => Real.exp (-((i : ℝ) * (1 / 10))))).map
        (· / ((List.range sentences.length).map
          (fun k : ℕ => Real.exp (-((k : ℝ) * (1 / 10))))).sum) := by
    rw [compute_position_scores, if_neg hlen, normalizeScores, if_pos hS]
  have hgetD : ∀ i < sentences.length,
      (compute_position_scores sentences).getD i 0 =
        Real.exp (-((i : ℝ) * (1 / 10))) /
          ((List.range sentences.length).map
            (fun k : ℕ => Real.exp (-((k : ℝ) * (1 / 10))))).sum := by
    intro i hi
    rw [hunfold, List.map_map]
    exact getD_range_map _ _ _ _ hi
  refine ⟨hgetD, ?_, ?_⟩
  · rw [compute_position_scores, if_neg hlen]
    exact normalizeScores_sum _ _ hn
  · intro i j hij hj
    rw [hgetD i (hij.trans hj), hgetD j hj]
    apply div_lt_div_of_pos_right _ hS
    apply Real.exp_lt_exp.mpr
    have : (i : ℝ) < (j : ℝ) := by exact_mod_cast hij
    nlinarith

/-- Witness for C8 at three sentences: the score at index 1 is strictly below
the score at index 0, and the vector sums to 1. -/
theorem position_signal_spec_witness :
    (compute_position_scores ["a", "b", "c"]).getD 1 0 <
      (compute_position_scores ["a", "b", "c"]).getD 0 0 ∧
    (compute_position_scores ["a", "b", "c"]).sum = 1 := by
  have h := position_signal_spec ["a", "b", "c"] (by simp)
  exact ⟨h.2.2 0 1 (by norm_num) (by simp), h.2.1⟩

/-! ### Selection machinery: lengths, ordering, stability -/

theorem pyTake_eq_take {α : Type} (k : ℤ) (l : List α) :
    pyTake k l = l.take (pyCount k l.length) := rfl

theorem rankDescending_length (w : List ℝ) (n : ℕ) :
    (rankDescending w n).length = n := by
  rw [rankDescending, List.length_insertionSort, List.length_range]

theorem argsortAsc_length (w : List ℝ) (n : ℕ) :
    (argsortAsc w n).length = n := by
  rw [argsortAsc, List.length_insertionSort, List.length_range]

theorem mem_rankDescending (w : List ℝ) (n : ℕ) (x : ℕ) :
    x ∈ rankDescending w n ↔ x < n := by
  rw [rankDescending, (List.perm_insertionSort _ _).mem_iff, List.mem_range]

theorem mem_argsortAsc (w : List ℝ) (n : ℕ) (x : ℕ) :
    x ∈ argsortAsc w n ↔ x < n := by
  rw [argsortAsc, (List.perm_insertionSort _ _).mem_iff, List.mem_range]

theorem selectedIndices_length (w : List ℝ) (k : ℤ) (n : ℕ)
    (po : Bool) : (selectedIndices w k n po).length = min (pyCount k n) n := by
  cases po
  · rw [selectedIndices]
    simp only [Bool.false_eq_true, if_neg (by simp : ¬False)]
    rw [List.length_insertionSort, pyTake_eq_take, List.length_take,
      List.length_reverse, argsortAsc_length]
  · rw [selectedIndices, if_pos rfl, List.length_insertionSort,
      pyTake_eq_take, List.length_take, rankDescending_length]

theorem mem_selectedIndices (w : List ℝ) (k : ℤ) (n : ℕ) (po : Bool)
    (x : ℕ) (hx : x ∈ selectedIndices w k n po) : x < n := by
  cases po
  · rw [selectedIndices] at hx
    simp only [Bool.false_eq_true, if_neg (by simp : ¬False)] at hx
    have h1 := (List.perm_insertionSort (· ≤ ·) _).subset hx
    have h2 := List.mem_of_mem_take (pyTake_eq_take _ _ ▸ h1)
    exact (mem_argsortAsc w n x).mp (List.mem_reverse.mp h2)
  · rw [selectedIndices, if_pos rfl] at hx
    have h1 := (List.perm_insertionSort (· ≤ ·) _).subset hx
    have h2 := List.mem_of_mem_take (pyTake_eq_take _ _ ▸ h1)
    exact (mem_rankDescending w n x).mp h2

theorem selectedIndices_nodup (w : List ℝ) (k : ℤ) (n : ℕ) (po : Bool) :
    (selectedIndices w k n po).Nodup := by
  cases po
  · rw [selectedIndices]
    simp only [Bool.false_eq_true, if_neg (by simp : ¬False)]
    apply ((List.perm_insertionSort (· ≤ ·) _).symm.nodup)
    rw [pyTake_eq_take]
    apply List.Nodup.sublist (List.take_sublist _ _)
    apply List.nodup_reverse.mpr
    exact (List.perm_insertionSort _ _).symm.nodup (List.nodup_range n)
  · rw [selectedIndices, if_pos rfl]
    apply ((List.perm_insertionSort (· ≤ ·) _).symm.nodup)
    rw [pyTake_eq_take]
    apply List.Nodup.sublist (List.take_sublist _ _)
    exact (List.perm_insertionSort _ _).symm.nodup (List.nodup_range n)

theorem sorted_lt_of_sorted_le_nodup (l : List ℕ)
    (hs : List.Sorted (· ≤ ·) l) (hn : l.Nodup) : List.Sorted (· < ·) l :=
  (hs.and hn).imp (fun h => lt_of_le_of_ne h.1 h.2)

theorem selectedIndices_sorted (w : List ℝ) (k : ℤ) (n : ℕ) (po : Bool) :
    List.Sorted (· < ·) (selectedIndices w k n po) := by
  apply sorted_lt_of_sorted_le_nodup _ _ (selectedIndices_nodup w k n po)
  cases po
  · rw [selectedIndices]
    simp only [Bool.false_eq_true, if_neg (by simp : ¬False)]
    exact List.sorted_insertionSort _ _
  · rw [selectedIndices, if_pos rfl]
    exact List.sorted_insertionSort _ _

theorem better_trans (w : List ℝ) {i j k : ℕ} (h1 : better w i j)
    (h2 : better w j k) : better w i k := by
  rcases h1 with h1 | ⟨he1, hl1⟩ <;> rcases h2 with h2 | ⟨he2, hl2⟩
  · exact Or.inl (h2.trans h1)
  · exact Or.inl (he2 ▸ h1)
  · exact Or.inl (he1 ▸ h2)
  · exact Or.inr ⟨he1.trans he2, hl1.trans hl2⟩

theorem better_asymm (w : List ℝ) {i j : ℕ} (h1 : better w i j)
    (h2 : better w j i) : False := by
  rcases h1 with h1 | ⟨he1, hl1⟩ <;> rcases h2 with h2 | ⟨he2, hl2⟩
  · exact absurd h1 (not_lt.mpr h2.le)
  · exact absurd h1 (not_lt.mpr he2.ge)
  · exact absurd h2 (not_lt.mpr he1.ge)
  · omega

theorem pairwise_better_orderedInsert (w : List ℝ) (a : ℕ) :
    ∀ L : List ℕ, L.Pairwise (better w) → (∀ x ∈ L, a < x) →
      (L.orderedInsert (fun i j => w.getD j 0 ≤ w.getD i 0) a).Pairwise
        (better w) := by
  intro L
  induction L with
  | nil => intro _ _; simp [List.orderedInsert, better]
  | cons b L ih =>
    intro hP ha
    rw [List.orderedInsert]
    split
    · rename_i hr
      have hab : better w a b := by
        rcases lt_or_eq_of_le hr with h | h
        · exact Or.inl h
        · exact Or.inr ⟨h.symm, ha b (by simp)⟩
      apply List.Pairwise.cons _ hP
      intro x hx
      rcases List.mem_cons.mp hx with rfl | hx
      · exact hab
      · exact better_trans w hab (List.rel_of_pairwise_cons hP hx)
    · rename_i hr
      have hba : w.getD a 0 < w.getD b 0 := not_le.mp hr
      apply List.Pairwise.cons
      · intro x hx
        rcases (List.mem_orderedInsert _).mp hx with rfl | hx
        · exact Or.inl hba
        · exact List.rel_of_pairwise_cons hP hx
      · exact ih hP.of_cons (fun x hx => ha x (by simp [hx]))

theorem pairwise_better_insertionSort (w : List ℝ) :
    ∀ l : List ℕ, l.Pairwise (· < ·) →
      (l.insertionSort (fun i j => w.getD j 0 ≤ w.getD i 0)).Pairwise
        (better w) := by
  intro l
  induction l with
  | nil => intro _; simp [List.insertionSort]
  | cons a l ih =>
    intro hl
    rw [List.insertionSort]
    apply pairwise_better_orderedInsert
    · exact ih hl.of_cons
    · intro x hx
      exact List.rel_of_pairwise_cons hl ((List.perm_insertionSort _ l).subset hx)

theorem pairwise_better_rankDescending (w : List ℝ) (n : ℕ) :
    (rankDescending w n).Pairwise (better w) :=
  pairwise_better_insertionSort w (List.range n) (List.pairwise_lt_range n)

theorem mem_take_of_better (w : List ℝ) (L : List ℕ) (k : ℕ) (i j : ℕ)
    (hP : L.Pairwise (better w)) (hi : i ∈ L) (hj : j ∈ L.take k)
    (hb : better w i j) : i ∈ L.take k := by
  have hsplit := List.take_append_drop k L
  rw [← hsplit] at hP hi
  rcases List.mem_append.mp hi with h | h
  · exact h
  · exact absurd hb (fun hb => better_asymm w
      ((List.pairwise_append.mp hP).2.2 j hj i h) hb)

theorem mem_selectedIndices_true_iff (w : List ℝ) (k : ℤ) (n : ℕ) (x : ℕ) :
    x ∈ selectedIndices w k n true ↔ x ∈ pyTake k (rankDescending w n) := by
  rw [selectedIndices, if_pos rfl]
  exact (List.perm_insertionSort _ _).mem_iff

/-! ### Claim C4 -/

/-- C4 (amended): with `preserve_order = true` the ranking block of
`summarize` (lines 420-429, embedded as `selectedIndices`) ranks indices by
weight descending with the stable tie-break — if `i` beats a selected `j`
(strictly larger weight, or equal weight and smaller original index) then `i`
is selected too.  With `preserve_order = false` the tie-break is reversed (see
the counterexample), so the claim holds only for the `preserve_order = true`
branch. -/
theorem stable_tiebreak_preserve_order (weights : List ℝ) (nSelect : ℤ)
    (n : ℕ) (i j : ℕ) (hin : i < n)
    (hj : j ∈ selectedIndices weights nSelect n true)
    (hb : better weights i j) :
    i ∈ selectedIndices weights nSelect n true := by
  rw [mem_selectedIndices_true_iff] at hj ⊢
  rw [pyTake_eq_take] at hj ⊢
  exact mem_take_of_better weights (rankDescending weights n) _ i j
    (pairwise_better_rankDescending weights n)
    ((mem_rankDescending weights n i).mpr hin) hj hb

/-- Witness for C4's amended theorem: with equal weights `[5, 5]` and index 1
selected, index 0 (equal weight, smaller index) is selected as well. -/
theorem stable_tiebreak_preserve_order_witness :
    0 ∈ selectedIndices [5, 5] 2 2 true :=
  stable_tiebreak_preserve_order [5, 5] 2 2 0 1 (by norm_num)
    (by
      norm_num [selectedIndices, rankDescending, pyTake, pyCount,
        List.insertionSort, List.orderedInsert, List.getD_cons_zero,
        List.getD_cons_succ])
    (Or.inr ⟨by norm_num [List.getD_cons_zero, List.getD_cons_succ], by norm_num⟩)

/-- Counterexample to C4 as stated: with `preserve_order=false`, two sentences
of equal combined weight and `top_k=1`, `np.argsort(weights)[::-1]` puts the
larger index first, so sentence "b" (index 1) is selected, not the
smaller-index "a" the claimed stable tie-break would pick. -/
theorem reverse_branch_breaks_ties_upward :
    (summarize trivialBackends cfgCnnOnly ["a", "b"] emptyStr
        (some [1, 1]) none (some 1) false).1 = ["b"] := by
  norm_num [summarize, cfgCnnOnly, compute_sentence_weights,
    compute_cnn_prob_scores, cnnRawScores, normalizeScores, combineScores,
    selectedIndices, argsortAsc, pyTake, pyCount, List.insertionSort,
    List.orderedInsert, List.getD_cons_zero, List.getD_cons_succ,
    List.range_succ, emptyStr]

/-! ### Claim C5 -/

/-- C5: for every non-empty input the sentences returned by `summarize` are
materialised from a strictly ascending list of original indices — under both
`preserve_order=true` and `preserve_order=false` — so a weight-descending
ordering of the output is never produced. -/
theorem output_in_original_order (B : Backends) (cfg : SummarizerConfig)
    (sentences : List String) (original_text : String)
    (cnn_probs : Option (List ℝ)) (compression : Option ℝ) (top_k : Option ℤ)
    (preserve_order : Bool) (hne : sentences ≠ []) :
    ∃ idx : List ℕ, List.Sorted (· < ·) idx ∧
      (∀ i ∈ idx, i < sentences.length) ∧
      (summarize B cfg sentences original_text cnn_probs compression top_k
          preserve_order).1 =
        idx.map (fun i => sentences.getD i emptyStr) := by
  have hlen : sentences.length ≠ 0 := fun h => hne (List.length_eq_zero.mp h)
  rw [summarize.eq_def]
  simp only [if_neg hlen]
  exact ⟨_, selectedIndices_sorted _ _ _ _,
    fun i hi => mem_selectedIndices _ _ _ _ i hi, rfl⟩

/-- Witness for C5 at a concrete non-empty input (both branch flags are
exercised through the universally quantified theorem; here
`preserve_order=false`). -/
theorem output_in_original_order_witness :
    ∃ idx : List ℕ, List.Sorted (· < ·) idx ∧
      (∀ i ∈ idx, i < (["a", "b"] : List String).length) ∧
      (summarize trivialBackends cfgCnnOnly ["a", "b"] emptyStr
          (some [1, 1]) none none false).1 =
        idx.map (fun i => (["a", "b"] : List String).getD i emptyStr) :=
  output_in_original_order trivialBackends cfgCnnOnly ["a", "b"] emptyStr
    (some [1, 1]) none none false (by simp)

/-! ### Claim C1 -/

/-- C1 (amended): selection-count resolution in `summarize`, for any
`preserve_order` flag and non-empty input of `N` sentences.  An explicit
`top_k` is clamped above by the sentence count but *not* below: any
`top_k = k ≥ 0` selects exactly `min(k, N)` sentences, so `top_k = 0` selects
none (the claimed clamp to a minimum of 1 does not exist — see the
counterexample).  An explicit compression ratio `r ∈ (0,1]` selects
`max(1, floor(N*r))` sentences, which lies in `[1, N]`; with neither given,
`min(max(2, floor(N*0.3)), N)` sentences are selected, at least 1.  `top_k`
takes priority over `compression`. -/
theorem selection_count_resolution (B : Backends) (cfg : SummarizerConfig)
    (sentences : List String) (original_text : String)
    (cnn_probs : Option (List ℝ)) (preserve_order : Bool)
    (hne : sentences ≠ []) :
    (∀ k : ℤ, 0 ≤ k → ∀ compression : Option ℝ,
      (summarize B cfg sentences original_text cnn_probs compression (some k)
          preserve_order).1.length = min k.toNat sentences.length) ∧
    (∀ r : ℝ, 0 < r → r ≤ 1 →
      (summarize B cfg sentences original_text cnn_probs (some r) none
          preserve_order).1.length =
        (max 1 ⌊(sentences.length : ℝ) * r⌋).toNat ∧
      1 ≤ (max 1 ⌊(sentences.length : ℝ) * r⌋).toNat ∧
      (max 1 ⌊(sentences.length : ℝ) * r⌋).toNat ≤ sentences.length) ∧
    ((summarize B cfg sentences original_text cnn_probs none none
          preserve_order).1.length =
        min (max 2 ⌊(sentences.length : ℝ) * (3 / 10)⌋).toNat
          sentences.length ∧
      1 ≤ (summarize B cfg sentences original_text cnn_probs none none
          preserve_order).1.length) := by
  have hlen : sentences.length ≠ 0 := fun h => hne (List.length_eq_zero.mp h)
  have hn1 : 1 ≤ sentences.length := by omega
  refine ⟨?_, ?_, ?_⟩
  · intro k hk compression
    rw [summarize.eq_def]
    simp only [if_neg hlen, List.length_map, selectedIndices_length, pyCount]
    rw [if_pos (le_min hk (by positivity))]
    omega
  · intro r hr hr1
    have hnn : (0 : ℝ) ≤ (sentences.length : ℝ) * r :=
      mul_nonneg (by positivity) hr.le
    have hfl : ⌊(sentences.length : ℝ) * r⌋ ≤ (sentences.length : ℤ) := by
      have hle : (sentences.length : ℝ) * r ≤ (sentences.length : ℝ) :=
        mul_le_of_le_one_right (by positivity) hr1
      calc ⌊(sentences.length : ℝ) * r⌋ ≤ ⌊(sentences.length : ℝ)⌋ :=
            Int.floor_le_floor hle
        _ = (sentences.length : ℤ) := Int.floor_natCast _
    rw [summarize.eq_def]
    simp only [if_neg hlen, List.length_map, selectedIndices_length, pyCount,
      pyInt, if_pos hnn]
    rw [if_pos (by omega : (0 : ℤ) ≤ max 1 ⌊(sentences.length : ℝ) * r⌋)]
    omega
  · have hnn : (0 : ℝ) ≤ (sentences.length : ℝ) * (3 / 10) := by positivity
    have hfl : ⌊(sentences.length : ℝ) * (3 / 10)⌋ ≤ (sentences.length : ℤ) := by
      have hle : (sentences.length : ℝ) * (3 / 10) ≤ (sentences.length : ℝ) :=
        mul_le_of_le_one_right (by positivity) (by norm_num)
      calc ⌊(sentences.length : ℝ) * (3 / 10)⌋ ≤ ⌊(sentences.length : ℝ)⌋ :=
            Int.floor_le_floor hle
        _ = (sentences.length : ℤ) := Int.floor_natCast _
    rw [summarize.eq_def]
    simp only [if_neg hlen, List.length_map, selectedIndices_length, pyCount,
      pyInt, if_pos hnn]
    rw [if_pos (by omega : (0 : ℤ) ≤ max 2 ⌊(sentences.length : ℝ) * (3 / 10)⌋)]
    constructor
    · omega
    · omega

/-- Witness for C1's amended theorem: three sentences with `top_k = 2` select
exactly `min(2, 3) = 2` sentences. -/
theorem selection_count_resolution_witness :
    (summarize trivialBackends cfgCnnOnly ["a", "b", "c"] emptyStr none none
        (some 2) true).1.length = min (Int.toNat 2) 3 :=
  (selection_count_resolution trivialBackends cfgCnnOnly ["a", "b", "c"]
    emptyStr none true (by simp)).1 2 (by norm_num) none

/-- Counterexample to C1 as stated: an explicit `top_k = 0` on a non-empty
input is not clamped to the range `[1, N]` — `summarize` selects zero
sentences. -/
theorem top_k_zero_selects_nothing :
    (summarize trivialBackends cfgCnnOnly ["a", "b"] emptyStr (some [1, 1])
        none (some 0) true).1 = [] := by
  rw [summarize.eq_def]
  norm_num [selectedIndices, pyTake, pyCount, List.insertionSort]

/-! ### Per-signal facts feeding claim C3 -/

theorem compute_cnn_prob_scores_length (sentences : List String)
    (original_text : String) (cp : Option (List ℝ)) :
    (compute_cnn_prob_scores sentences original_text cp).length =
      sentences.length := by
  cases cp with
  | none => rw [compute_cnn_prob_scores, uniform_if, uniformScores_length]
  | some probs =>
    rw [compute_cnn_prob_scores]
    repeat' split
    all_goals
      first
        | exact uniformScores_length _
        | (simp only [List.length_nil]; omega)
        | (rw [normalizeScores_length _ _ (cnnRawScores_length _ _)])

theorem compute_cnn_prob_scores_sum (sentences : List String)
    (original_text : String) (cp : Option (List ℝ))
    (hn : 0 < sentences.length) :
    (compute_cnn_prob_scores sentences original_text cp).sum = 1 := by
  cases cp with
  | none =>
    rw [compute_cnn_prob_scores, uniform_if]
    exact uniformScores_sum _ hn
  | some probs =>
    rw [compute_cnn_prob_scores]
    repeat' split
    all_goals
      first
        | exact uniformScores_sum _ hn
        | omega
        | exact normalizeScores_sum _ _ hn

theorem compute_cnn_prob_scores_nonneg (sentences : List String)
    (original_text : String) (cp : Option (List ℝ))
    (hcp : ∀ l, cp = some l → ∀ x ∈ l, 0 ≤ x) :
    ∀ x ∈ compute_cnn_prob_scores sentences original_text cp, 0 ≤ x := by
  cases cp with
  | none =>
    rw [compute_cnn_prob_scores, uniform_if]
    exact uniformScores_nonneg _
  | some probs =>
    rw [compute_cnn_prob_scores]
    repeat' split
    all_goals
      first
        | exact uniformScores_nonneg _
        | simp
        | exact normalizeScores_nonneg _ _
            (cnnRawScores_nonneg _ _ (hcp probs rfl))

theorem range_map_length (n : ℕ) (f : ℕ → ℝ) :
    ((List.range n).map f).length = n := by
  rw [List.length_map, List.length_range]

theorem compute_textrank_scores_length (B : Backends)
    (sentences : List String) :
    (compute_textrank_scores B sentences).length = sentences.length := by
  rw [compute_textrank_scores]
  repeat' split
  all_goals
    first
      | exact uniformScores_length _
      | (simp only [List.length_nil]; omega)
      | (rw [normalizeScores_length _ _ (range_map_length _ _)])
      | (rw [normalizeScores_length _ _ (uniformScores_length _)])

theorem compute_textrank_scores_sum (B : Backends) (sentences : List String)
    (hn : 0 < sentences.length) :
    (compute_textrank_scores B sentences).sum = 1 := by
  rw [compute_textrank_scores]
  repeat' split
  all_goals
    first
      | exact uniformScores_sum _ hn
      | omega
      | exact normalizeScores_sum _ _ hn

theorem compute_textrank_scores_nonneg (B : Backends)
    (sentences : List String)
    (hpr : ∀ pr, B.pagerank sentences = some pr → ∀ i, 0 ≤ pr i) :
    ∀ x ∈ compute_textrank_scores B sentences, 0 ≤ x := by
  rw [compute_textrank_scores]
  repeat' split
  all_goals
    first
      | exact uniformScores_nonneg _
      | simp
      | exact normalizeScores_nonneg _ _ (uniformScores_nonneg _)
      | (rename_i pr hpr'
         apply normalizeScores_nonneg
         intro x hx
         obtain ⟨i, _, rfl⟩ := List.mem_map.mp hx
         exact hpr pr hpr' i)

theorem compute_tfidf_scores_length (B : Backends)
    (sentences : List String) :
    (compute_tfidf_scores B sentences).length = sentences.length := by
  rw [compute_tfidf_scores]
  repeat' split
  all_goals
    first
      | exact uniformScores_length _
      | (simp only [List.length_nil]; omega)
      | (rw [normalizeScores_length _ _ (range_map_length _ _)])

theorem compute_tfidf_scores_sum (B : Backends) (sentences : List String)
    (hn : 0 < sentences.length) :
    (compute_tfidf_scores B sentences).sum = 1 := by
  rw [compute_tfidf_scores]
  repeat' split
  all_goals
    first
      | exact uniformScores_sum _ hn
      | omega
      | exact normalizeScores_sum _ _ hn

theorem compute_tfidf_scores_nonneg (B : Backends) (sentences : List String)
    (htf : ∀ f, B.tfidfSim sentences = some f → ∀ i, 0 ≤ f i) :
    ∀ x ∈ compute_tfidf_scores B sentences, 0 ≤ x := by
  rw [compute_tfidf_scores]
  repeat' split
  all_goals
    first
      | exact uniformScores_nonneg _
      | simp
      | (rename_i f hf
         apply normalizeScores_nonneg
         intro x hx
         obtain ⟨i, _, rfl⟩ := List.mem_map.mp hx
         exact htf f hf i)

theorem compute_embedding_scores_length (B : Backends) (useEmb : Bool)
    (sentences : List String) :
    (compute_embedding_scores B useEmb sentences).length =
      sentences.length := by
  rw [compute_embedding_scores]
  repeat' split
  all_goals
    first
      | exact compute_tfidf_scores_length B sentences
      | (rw [normalizeScores_length _ _ (range_map_length _ _)])

theorem compute_embedding_scores_sum (B : Backends) (useEmb : Bool)
    (sentences : List String) (hn : 0 < sentences.length) :
    (compute_embedding_scores B useEmb sentences).sum = 1 := by
  rw [compute_embedding_scores]
  repeat' split
  all_goals
    first
      | exact compute_tfidf_scores_sum B sentences hn
      | exact normalizeScores_sum _ _ hn

theorem compute_embedding_scores_nonneg (B : Backends) (useEmb : Bool)
    (sentences : List String)
    (htf : ∀ f, B.tfidfSim sentences = some f → ∀ i, 0 ≤ f i)
    (hem : ∀ f, B.embedSim sentences = some f → ∀ i, 0 ≤ f i) :
    ∀ x ∈ compute_embedding_scores B useEmb sentences, 0 ≤ x := by
  rw [compute_embedding_scores]
  repeat' split
  all_goals
    first
      | exact compute_tfidf_scores_nonneg B sentences htf
      | (rename_i f hf
         apply normalizeScores_nonneg
         intro x hx
         obtain ⟨i, _, rfl⟩ := List.mem_map.mp hx
         exact hem f hf i)

theorem compute_position_scores_length (sentences : List String) :
    (compute_position_scores sentences).length = sentences.length := by
  rw [compute_position_scores]
  split
  · rename_i h
    rw [h, List.length_nil]
  · rw [normalizeScores_length _ _ (range_map_length _ _)]

theorem compute_position_scores_sum (sentences : List String)
    (hn : 0 < sentences.length) :
    (compute_position_scores sentences).sum = 1 := by
  rw [compute_position_scores, if_neg hn.ne']
  exact normalizeScores_sum _ _ hn

theorem compute_position_scores_nonneg (sentences : List String) :
    ∀ x ∈ compute_position_scores sentences, 0 ≤ x := by
  rw [compute_position_scores]
  split
  · simp
  · apply normalizeScores_nonneg
    intro x hx
    obtain ⟨i, _, rfl⟩ := List.mem_map.mp hx
    exact (Real.exp_pos _).le

theorem getD_nonneg (l : List ℝ) (i : ℕ) (h : ∀ x ∈ l, 0 ≤ x) :
    0 ≤ l.getD i 0 := by
  by_cases hi : i < l.length
  · rw [List.getD_eq_getElem _ _ hi]
    exact h _ (List.getElem_mem hi)
  · rw [List.getD_eq_default _ _ (by omega)]

theorem combineScores_length (cfg : SummarizerConfig)
    (cnn tr sim pos : List ℝ) (n : ℕ) :
    (combineScores cfg cnn tr sim pos n).length = n := by
  rw [combineScores, List.length_map, List.length_range]

theorem combineScores_nonneg (cfg : SummarizerConfig)
    (cnn tr sim pos : List ℝ) (n : ℕ)
    (hcw : 0 ≤ cfg.cnn_prob_weight) (htw : 0 ≤ cfg.textrank_weight)
    (hfw : 0 ≤ cfg.tfidf_weight) (hpw : 0 ≤ cfg.position_weight)
    (h1 : ∀ x ∈ cnn, 0 ≤ x) (h2 : ∀ x ∈ tr, 0 ≤ x)
    (h3 : ∀ x ∈ sim, 0 ≤ x) (h4 : ∀ x ∈ pos, 0 ≤ x) :
    ∀ x ∈ combineScores cfg cnn tr sim pos n, 0 ≤ x := by
  rw [combineScores]
  intro x hx
  obtain ⟨i, _, rfl⟩ := List.mem_map.mp hx
  have g1 := getD_nonneg cnn i h1
  have g2 := getD_nonneg tr i h2
  have g3 := getD_nonneg sim i h3
  have g4 := getD_nonneg pos i h4
  positivity

/-! ### Claim C3 -/

/-- C3 (amended): for every non-empty sentence list and *any* `cnn_probs`
argument (any configuration and backends), every per-signal weight vector
recorded in the component map and the combined weight vector returned by
`compute_sentence_weights` have length equal to the sentence count and sum to
1 within tolerance `1e-6`; the entries are additionally non-negative provided
the supplied `cnn_probs` values, the backend scores, and the configured
coefficients are non-negative.  (For a `cnn_probs` argument containing a
negative value the recorded `cnn_prob` vector has a negative entry — see the
counterexample — so the claim's "any cnn_probs argument" fails for
non-negativity, while length and sum-to-1 hold unconditionally.) -/
theorem component_and_combined_vectors_spec (B : Backends)
    (cfg : SummarizerConfig) (sentences : List String)
    (original_text : String) (cnn_probs : Option (List ℝ))
    (hne : sentences ≠ []) :
    (∀ p ∈ (compute_sentence_weights B cfg sentences original_text
        cnn_probs).2,
      p.2.length = sentences.length ∧ |p.2.sum - 1| ≤ eps) ∧
    (compute_sentence_weights B cfg sentences original_text
        cnn_probs).1.length = sentences.length ∧
    |(compute_sentence_weights B cfg sentences original_text
        cnn_probs).1.sum - 1| ≤ eps ∧
    (0 ≤ cfg.cnn_prob_weight → 0 ≤ cfg.textrank_weight →
      0 ≤ cfg.tfidf_weight → 0 ≤ cfg.position_weight →
      (∀ l, cnn_probs = some l → ∀ x ∈ l, 0 ≤ x) →
      (∀ pr, B.pagerank sentences = some pr → ∀ i, 0 ≤ pr i) →
      (∀ f, B.tfidfSim sentences = some f → ∀ i, 0 ≤ f i) →
      (∀ f, B.embedSim sentences = some f → ∀ i, 0 ≤ f i) →
      (∀ p ∈ (compute_sentence_weights B cfg sentences original_text
          cnn_probs).2, ∀ x ∈ p.2, 0 ≤ x) ∧
      (∀ x ∈ (compute_sentence_weights B cfg sentences original_text
          cnn_probs).1, 0 ≤ x)) := by
  have hn : 0 < sentences.length := List.length_pos.mpr hne
  have hlen : sentences.length ≠ 0 := hn.ne'
  have heps : (0 : ℝ) ≤ eps := by rw [eps]; norm_num
  rw [compute_sentence_weights]
  simp only [if_neg hlen]
  refine ⟨?_, ?_, ?_, ?_⟩
  · intro p hp
    simp only [List.mem_append] at hp
    rcases hp with ((hp | hp) | hp) | hp
    · split at hp
      · rename_i hc
        simp only [List.mem_singleton] at hp
        subst hp
        simp only [if_pos hc]
        refine ⟨compute_cnn_prob_scores_length _ _ _, ?_⟩
        rw [compute_cnn_prob_scores_sum _ _ _ hn]
        simpa using heps
      · simp at hp
    · split at hp
      · rename_i hc
        simp only [List.mem_singleton] at hp
        subst hp
        simp only [if_pos hc]
        refine ⟨compute_textrank_scores_length _ _, ?_⟩
        rw [compute_textrank_scores_sum _ _ hn]
        simpa using heps
      · simp at hp
    · split at hp
      · rename_i hc
        simp only [List.mem_singleton] at hp
        subst hp
        simp only [if_pos hc]
        split
        · refine ⟨compute_embedding_scores_length _ _ _, ?_⟩
          rw [compute_embedding_scores_sum _ _ _ hn]
          simpa using heps
        · refine ⟨compute_tfidf_scores_length _ _, ?_⟩
          rw [compute_tfidf_scores_sum _ _ hn]
          simpa using heps
      · simp at hp
    · split at hp
      · rename_i hc
        simp only [List.mem_singleton] at hp
        subst hp
        simp only [if_pos hc]
        refine ⟨compute_position_scores_length _, ?_⟩
        rw [compute_position_scores_sum _ hn]
        simpa using heps
      · simp at hp
  · exact normalizeScores_length _ _ (combineScores_length _ _ _ _ _ _)
  · rw [normalizeScores_sum _ _ hn]
    simpa using heps
  · intro hcw htw hfw hpw hcp hpr htf hem
    constructor
    · intro p hp
      simp only [List.mem_append] at hp
      rcases hp with ((hp | hp) | hp) | hp
      · split at hp
        · rename_i hc
          simp only [List.mem_singleton] at hp
          subst hp
          simp only [if_pos hc]
          exact compute_cnn_prob_scores_nonneg _ _ _ hcp
        · simp at hp
      · split at hp
        · rename_i hc
          simp only [List.mem_singleton] at hp
          subst hp
          simp only [if_pos hc]
          exact compute_textrank_scores_nonneg _ _ hpr
        · simp at hp
      · split at hp
        · rename_i hc
          simp only [List.mem_singleton] at hp
          subst hp
          simp only [if_pos hc]
          split
          · exact compute_embedding_scores_nonneg _ _ _ htf hem
          · exact compute_tfidf_scores_nonneg _ _ htf
        · simp at hp
      · split at hp
        · rename_i hc
          simp only [List.mem_singleton] at hp
          subst hp
          simp only [if_pos hc]
          exact compute_position_scores_nonneg _
        · simp at hp
    · have hnn1 : ∀ x ∈ (if 0 < cfg.cnn_prob_weight then
          compute_cnn_prob_scores sentences original_text cnn_probs
        else List.replicate sentences.length 0), 0 ≤ x := by
        split
        · exact compute_cnn_prob_scores_nonneg _ _ _ hcp
        · intro x hx
          rw [List.eq_of_mem_replicate hx]
      have hnn2 : ∀ x ∈ (if 0 < cfg.textrank_weight then
          compute_textrank_scores B sentences
        else List.replicate sentences.length 0), 0 ≤ x := by
        split
        · exact compute_textrank_scores_nonneg _ _ hpr
        · intro x hx
          rw [List.eq_of_mem_replicate hx]
      have hnn3 : ∀ x ∈ (if 0 < cfg.tfidf_weight then
          (if cfg.use_embeddings then
            compute_embedding_scores B cfg.use_embeddings sentences
           else compute_tfidf_scores B sentences)
        else List.replicate sentences.length 0), 0 ≤ x := by
        split
        · split
          · exact compute_embedding_scores_nonneg _ _ _ htf hem
          · exact compute_tfidf_scores_nonneg _ _ htf
        · intro x hx
          rw [List.eq_of_mem_replicate hx]
      have hnn4 : ∀ x ∈ (if 0 < cfg.position_weight then
          compute_position_scores sentences
        else List.replicate sentences.length 0), 0 ≤ x := by
        split
        · exact compute_position_scores_nonneg _
        · intro x hx
          rw [List.eq_of_mem_replicate hx]
      exact normalizeScores_nonneg _ _
        (combineScores_nonneg _ _ _ _ _ _ hcw htw hfw hpw hnn1 hnn2 hnn3 hnn4)

/-- Witness for C3's amended theorem at a single sentence with absent
`cnn_probs`, all-failing backends and the cnn-only configuration; the
non-negativity hypotheses of the final conjunct are discharged there too. -/
theorem component_and_combined_vectors_spec_witness :
    (∀ p ∈ (compute_sentence_weights trivialBackends cfgCnnOnly ["a"]
        emptyStr none).2,
      p.2.length = 1 ∧ |p.2.sum - 1| ≤ eps) ∧
    (compute_sentence_weights trivialBackends cfgCnnOnly ["a"] emptyStr
        none).1.length = 1 ∧
    |(compute_sentence_weights trivialBackends cfgCnnOnly ["a"] emptyStr
        none).1.sum - 1| ≤ eps ∧
    (∀ p ∈ (compute_sentence_weights trivialBackends cfgCnnOnly ["a"]
        emptyStr none).2, ∀ x ∈ p.2, 0 ≤ x) ∧
    (∀ x ∈ (compute_sentence_weights trivialBackends cfgCnnOnly ["a"]
        emptyStr none).1, 0 ≤ x) := by
  have h := component_and_combined_vectors_spec trivialBackends cfgCnnOnly
    ["a"] emptyStr none (by simp)
  have hd := h.2.2.2 (by norm_num [cfgCnnOnly]) (by norm_num [cfgCnnOnly])
    (by norm_num [cfgCnnOnly]) (by norm_num [cfgCnnOnly])
    (fun l hl => Option.noConfusion hl) (fun pr hp => Option.noConfusion hp)
    (fun f hf => Option.noConfusion hf) (fun f hf => Option.noConfusion hf)
  exact ⟨h.1, h.2.1, h.2.2.1, hd.1, hd.2⟩

/-- Counterexample to C3 as stated: with the `cnn_probs` argument `[-1, 2]`
over two sentences, the recorded `cnn_prob` component vector is `[-1, 2]`
itself (its positive sum 1 is used as the divisor), which contains a negative
entry, refuting non-negativity for arbitrary `cnn_probs`. -/
theorem component_vector_negative_entry :
    (compute_sentence_weights trivialBackends cfgCnnOnly ["a", "b"] emptyStr
        (some [-1, 2])).2 = [(cnnProbKey, [-1, 2])] ∧
    ¬ (∀ p ∈ (compute_sentence_weights trivialBackends cfgCnnOnly ["a", "b"]
        emptyStr (some [-1, 2])).2, ∀ x ∈ p.2, (0 : ℝ) ≤ x) := by
  have h1 : (compute_sentence_weights trivialBackends cfgCnnOnly ["a", "b"]
      emptyStr (some [-1, 2])).2 = [(cnnProbKey, [-1, 2])] := by
    norm_num [compute_sentence_weights, cfgCnnOnly, compute_cnn_prob_scores,
      cnnRawScores, normalizeScores, List.sum_cons, List.sum_nil]
  refine ⟨h1, ?_⟩
  intro hall
  have h2 := hall (cnnProbKey, [-1, 2]) (by rw [h1]; simp) (-1) (by simp)
  norm_num at h2
